import Mathlib

/-!
# Verification of the `rust_mls` moving-least-squares deformation library

Shallow embedding of the crates `moving-least-squares` (point deformation
solver, `src/lib.rs`) and `moving-least-squares-image` (dense and sparse
reverse warpers, `src/lib.rs`, and the bilinear sampler,
`src/interpolation.rs`).

Modeling conventions:
* `f32` values are idealized as exact rationals (`ℚ`).  IEEE-specific
  behaviour that the claims depend on is modeled explicitly:
  - the weight of a control point is `1 / sqrDist`; in `f32` this weight is
    infinite exactly when the squared distance is `0.0`, and (in exact
    arithmetic, where no overflow exists) the weight *sum* is infinite
    exactly when some individual weight is, i.e. when some squared distance
    is zero.  The `w_sum.is_infinite()` guard is therefore embedded as
    "some control point has squared distance 0 to the query".
  - `Rat` division by zero yields `0` in Lean where IEEE yields `±∞`/NaN;
    every theorem below that evaluates a division puts the corresponding
    non-degeneracy hypothesis (`det ≠ 0`, `μ ≠ 0`, …) in scope, except for
    counterexamples, which are robust to either convention (both the junk
    rational value and the IEEE NaN differ from the value the claim
    requires).
* `u32` arithmetic of the image crate: the `width - 2` subtraction inside
  the bilinear sampler is modeled with an explicit wrap modulo `2^32`,
  because its underflow for `width < 2` is observable (it lets the bounds
  guard pass and an out-of-range `get_pixel` follow).  The subtractions
  `width - 1` / `height - 1` of the sparse warper are modeled with
  truncated `ℕ` subtraction; theorems about them assume `1 ≤ width`,
  `1 ≤ height`, matching the claims.
* A Rust panic is modeled by `Option.none` where a claim is about it
  (`reverse_sparse` with a zero subresolution factor panics on its very
  first statement, the division `(width - 1) / subresolution_factor`).
* `sqrt` on `f32` is modeled by `Rat.sqrt`, which agrees with the real
  square root on perfect squares — the only place any claim below
  evaluates it.
-/

namespace MLS

/-- 2D point (the `Point` struct of `moving-least-squares/src/lib.rs`,
also standing for the `(f32, f32)` tuples of the public API). -/
@[ext]
structure Point where
  x : ℚ
  y : ℚ
deriving DecidableEq, Repr

/-- 2x2 matrix (the `Mat2` struct), fields in source order
`| m11 m12 |` / `| m21 m22 |`. -/
@[ext]
structure Mat2 where
  m11 : ℚ
  m21 : ℚ
  m12 : ℚ
  m22 : ℚ
deriving DecidableEq, Repr

/-- `Point::zero`. -/
def Point.zero : Point := ⟨0, 0⟩

instance : Add Point := ⟨fun p q => ⟨p.x + q.x, p.y + q.y⟩⟩

instance : Sub Point := ⟨fun p q => ⟨p.x - q.x, p.y - q.y⟩⟩

instance : SMul ℚ Point := ⟨fun a p => ⟨a * p.x, a * p.y⟩⟩

/-- `Point::dot`. -/
def Point.dot (p q : Point) : ℚ := p.x * q.x + p.y * q.y

/-- `Point::sqr_norm`. -/
def Point.sqrNorm (p : Point) : ℚ := p.x * p.x + p.y * p.y

/-- `Point::times_transpose`: the 2x2 matrix `p * qᵀ`. -/
def Point.timesTranspose (p q : Point) : Mat2 :=
  { m11 := p.x * q.x
    m21 := p.y * q.x
    m12 := p.x * q.y
    m22 := p.y * q.y }

/-- `Point::transpose_mul`: the row vector `pᵀ * m` (returned as a point). -/
def Point.transposeMul (p : Point) (m : Mat2) : Point :=
  ⟨m.m11 * p.x + m.m21 * p.y, m.m12 * p.x + m.m22 * p.y⟩

/-- `Mat2::zero`. -/
def Mat2.zero : Mat2 := ⟨0, 0, 0, 0⟩

instance : Add Mat2 :=
  ⟨fun a b => ⟨a.m11 + b.m11, a.m21 + b.m21, a.m12 + b.m12, a.m22 + b.m22⟩⟩

instance : SMul ℚ Mat2 :=
  ⟨fun s a => ⟨s * a.m11, s * a.m21, s * a.m12, s * a.m22⟩⟩

instance : Mul Mat2 :=
  ⟨fun a b =>
    { m11 := a.m11 * b.m11 + a.m12 * b.m21
      m21 := a.m21 * b.m11 + a.m22 * b.m21
      m12 := a.m11 * b.m12 + a.m12 * b.m22
      m22 := a.m21 * b.m12 + a.m22 * b.m22 }⟩

/-- `Mat2::det`. -/
def Mat2.det (m : Mat2) : ℚ := m.m11 * m.m22 - m.m21 * m.m12

/-- `Mat2::inv` (`adj(M)/det(M)`; no zero-determinant check, as the source). -/
def Mat2.inv (m : Mat2) : Mat2 :=
  (1 / m.det) • Mat2.mk m.m22 (-m.m21) (-m.m12) m.m11

/-- `impl Sum for Point`: fold the running sum starting from zero. -/
def sumP (l : List Point) : Point := l.foldl (· + ·) Point.zero

/-- `impl Sum for Mat2`. -/
def sumM (l : List Mat2) : Mat2 := l.foldl (· + ·) Mat2.zero

/-- `iter().sum()` on `f32`. -/
def sumQ (l : List ℚ) : ℚ := l.foldl (· + ·) 0

-- Shared scaffold of the three `deform_*` functions ---------------------------

/-- Squared distance from the query `v` to a control point (`sqr_dist`). -/
def sqrDist (v p : Point) : ℚ := (p - v).sqrNorm

/-- The weight list `w_all` (`1.0 / sqr_dist(pt)` for every control point). -/
def wAll (P : List Point) (v : Point) : List ℚ :=
  P.map (fun p => 1 / sqrDist v p)

/-- The weight sum `w_sum`. -/
def wSum (P : List Point) (v : Point) : ℚ := sumQ (wAll P v)

/-- The guard `w_sum.is_infinite()`: in exact arithmetic the sum of the
(nonnegative, overflow-free) weights is infinite exactly when some
individual weight `1/sqr_dist` is infinite, i.e. some squared distance is
zero. -/
def wSumInfinite (P : List Point) (v : Point) : Bool :=
  P.any (fun p => decide (sqrDist v p = 0))

/-- `w_all.iter().position(|w| w.is_infinite())`: first index whose weight
is infinite (squared distance zero). -/
def infIdx (P : List Point) (v : Point) : ℕ :=
  P.findIdx (fun p => decide (sqrDist v p = 0))

/-- The weighted centroid `p*` of the source control points. -/
def pStar (P : List Point) (v : Point) : Point :=
  (1 / wSum P v) • sumP (((wAll P v).zip P).map (fun wp => wp.1 • wp.2))

/-- The weighted centroid `q*` of the destination control points.
Note the `zip` truncates to the shorter of the two lists, exactly as the
Rust iterator `zip` does on mismatched control arrays. -/
def qStar (P Q : List Point) (v : Point) : Point :=
  (1 / wSum P v) • sumP (((wAll P v).zip Q).map (fun wq => wq.1 • wq.2))

/-- The centered source control points `p_hat`. -/
def pHat (P : List Point) (v : Point) : List Point :=
  P.map (fun p => p - pStar P v)

/-- The centered destination control points `q_hat`. -/
def qHat (P Q : List Point) (v : Point) : List Point :=
  Q.map (fun q => q - qStar P Q v)

/-- The matrix `mp = Σ wᵢ · p̂ᵢ p̂ᵢᵗ` of `deform_affine`. -/
def mpMat (P : List Point) (v : Point) : Mat2 :=
  sumM (((wAll P v).zip (pHat P v)).map (fun wp => wp.1 • wp.2.timesTranspose wp.2))

/-- The matrix `mq = Σ (wᵢ p̂ᵢ) q̂ᵢᵗ` of `deform_affine` (with `q̂ᵢ`
computed inline from `controls_q`, as in the source). -/
def mqMat (P Q : List Point) (v : Point) : Mat2 :=
  sumM ((((wAll P v).zip (pHat P v)).zip Q).map
    (fun wpq => (wpq.1.1 • wpq.1.2).timesTranspose (wpq.2 - qStar P Q v)))

/-- `deform_affine` of `moving-least-squares/src/lib.rs`.
The degeneracy branch indexes `controls_q[index]`; with mismatched control
arrays this can be out of range (a Rust panic), modeled by the `getD`
default (no claim below evaluates that path). -/
def deform_affine (P Q : List Point) (v : Point) : Point :=
  if wSumInfinite P v then Q.getD (infIdx P v) Point.zero
  else
    ((v - pStar P v).transposeMul (mpMat P v).inv).transposeMul (mqMat P Q v)
      + qStar P Q v

/-- The scale normalizer `mu_s = Σ wᵢ |p̂ᵢ|²` (eq 6) of `deform_similarity`. -/
def muS (P : List Point) (v : Point) : ℚ :=
  sumQ (((wAll P v).zip (pHat P v)).map (fun wp => wp.1 * wp.2.sqrNorm))

/-- The matrix `[[v.x, v.y], [v.y, -v.x]]` built for each control point in
the similarity/rigid variants. -/
def aMat (p : Point) : Mat2 :=
  { m11 := p.x
    m21 := p.y
    m12 := p.y
    m22 := -p.x }

/-- The unnormalized matrix `Σ wᵢ · A(p̂ᵢ) · A(q̂ᵢ)` (eq 6), shared by the
similarity and rigid variants. -/
def mSimRaw (P Q : List Point) (v : Point) : Mat2 :=
  sumM ((((wAll P v).zip (pHat P v)).zip (qHat P Q v)).map
    (fun wpq => wpq.1.1 • (aMat wpq.1.2 * aMat wpq.2)))

/-- `deform_similarity` of `moving-least-squares/src/lib.rs`. -/
def deform_similarity (P Q : List Point) (v : Point) : Point :=
  if wSumInfinite P v then Q.getD (infIdx P v) Point.zero
  else
    (v - pStar P v).transposeMul ((1 / muS P v) • mSimRaw P Q v) + qStar P Q v

/-- The 2-vector `mu_r_vec = Σ wᵢ (q̂ᵢ·p̂ᵢ, q̂ᵢ·p̂ᵢ⊥)` of `deform_rigid`. -/
def muRvec (P Q : List Point) (v : Point) : Point :=
  sumP ((((wAll P v).zip (pHat P v)).zip (qHat P Q v)).map
    (fun wpq =>
      Point.mk (wpq.1.1 * wpq.2.dot wpq.1.2)
        (wpq.1.1 * wpq.2.dot (Point.mk (-wpq.1.2.y) wpq.1.2.x))))

/-- `mu_r = |mu_r_vec|` (the `f32` `sqrt` modeled by `Rat.sqrt`, exact on
the perfect squares at which the claims evaluate it). -/
def muR (P Q : List Point) (v : Point) : ℚ :=
  Rat.sqrt (muRvec P Q v).sqrNorm

/-- `deform_rigid` of `moving-least-squares/src/lib.rs`. -/
def deform_rigid (P Q : List Point) (v : Point) : Point :=
  if wSumInfinite P v then Q.getD (infIdx P v) Point.zero
  else
    (v - pStar P v).transposeMul ((1 / muR P Q v) • mSimRaw P Q v) + qStar P Q v

/-- The closed enumeration of transform kinds (§3 of the spec; the three
public functions of the crate). -/
inductive Kind
  | affine
  | similarity
  | rigid
deriving DecidableEq, Repr

/-- `deform(kind, sourcePoints, destPoints, query)`: dispatch to the three
crate functions. -/
def deform (k : Kind) (P Q : List Point) (v : Point) : Point :=
  match k with
  | .affine => deform_affine P Q v
  | .similarity => deform_similarity P Q v
  | .rigid => deform_rigid P Q v

-- Image layer (`moving-least-squares-image`) ----------------------------------

/-- An `Rgb<u8>` pixel. -/
structure Rgb where
  r : Fin 256
  g : Fin 256
  b : Fin 256
deriving DecidableEq, Repr

/-- The `Vec3` struct of `interpolation.rs` (the `f32` intermediate vector
of a pixel interpolation). -/
@[ext]
structure Vec3 where
  x : ℚ
  y : ℚ
  z : ℚ
deriving DecidableEq, Repr

instance : Add Vec3 := ⟨fun a c => ⟨a.x + c.x, a.y + c.y, a.z + c.z⟩⟩

instance : SMul ℚ Vec3 := ⟨fun s a => ⟨s * a.x, s * a.y, s * a.z⟩⟩

/-- `CanLinearInterpolate::into_vector` at the `Rgb<u8>` instantiation used
by both warpers: each channel cast to `f32`. -/
def Rgb.intoVector (p : Rgb) : Vec3 := ⟨(p.r : ℚ), (p.g : ℚ), (p.b : ℚ)⟩

/-- `u8::from_vector`: `v.max(0.0).min(255.0).round() as u8` (rounding half
away from zero; on the clamped nonnegative value this is `⌊v + 1/2⌋`). -/
def fromVectorU8 (v : ℚ) : Fin 256 :=
  ⟨(⌊min 255 (max 0 v) + 1 / 2⌋).toNat, by
    have h1 : min 255 (max 0 v) + 1 / 2 < ((256 : ℤ) : ℚ) := by
      have := min_le_left (255 : ℚ) (max 0 v)
      push_cast
      linarith
    have h2 := Int.floor_lt.mpr h1
    omega⟩

/-- `Rgb<u8>::from_vector`: channelwise clamp-round. -/
def fromVectorRgb (v : Vec3) : Rgb :=
  ⟨fromVectorU8 v.x, fromVectorU8 v.y, fromVectorU8 v.z⟩

/-- An `RgbImage`: dimensions plus a pixel generator.  The model keeps the
generator total on `ℕ × ℕ`; only the values on
`[0, width) × [0, height)` are meaningful (claims compare rasters there). -/
structure Img where
  width : ℕ
  height : ℕ
  pix : ℕ → ℕ → Rgb

/-- The `u32` expression `(width - 2)` of the bilinear bounds test,
including its wraparound for `width < 2`. -/
def wrapSub2 (w : ℕ) : ℕ := (w + 2 ^ 32 - 2) % 2 ^ 32

/-- `interpolation::bilinear` at the `Rgb<u8>` instantiation used by the
warpers.  Returns `none` when the conservative bounds test fails.  When the
test passes, the source calls `get_pixel` on the four neighbours; those
reads are listed by `bilinearReads` below (for `width < 2` the wrapped
bound lets out-of-range reads through — a panic in Rust; the model's total
`pix` makes the value here meaningful only when the reads are in bounds). -/
def bilinear (img : Img) (x y : ℚ) : Option Rgb :=
  let u : ℤ := ⌊x⌋
  let v : ℤ := ⌊y⌋
  if 0 ≤ u ∧ (u : ℚ) < (wrapSub2 img.width : ℚ) ∧ 0 ≤ v ∧ (v : ℚ) < (wrapSub2 img.height : ℚ)
  then
    let u₀ := u.toNat
    let v₀ := v.toNat
    let u₁ := u₀ + 1
    let v₁ := v₀ + 1
    let a := x - (u : ℚ)
    let b := y - (v : ℚ)
    let uv00 := (img.pix u₀ v₀).intoVector
    let uv10 := (img.pix u₁ v₀).intoVector
    let uv01 := (img.pix u₀ v₁).intoVector
    let uv11 := (img.pix u₁ v₁).intoVector
    some (fromVectorRgb
      (((1 - b) * (1 - a)) • uv00 + (b * (1 - a)) • uv01
        + ((1 - b) * a) • uv10 + (b * a) • uv11))
  else none

/-- The list of `get_pixel` accesses performed by `bilinear` at `(x, y)`
(empty when the bounds test fails). -/
def bilinearReads (img : Img) (x y : ℚ) : List (ℕ × ℕ) :=
  let u : ℤ := ⌊x⌋
  let v : ℤ := ⌊y⌋
  if 0 ≤ u ∧ (u : ℚ) < (wrapSub2 img.width : ℚ) ∧ 0 ≤ v ∧ (v : ℚ) < (wrapSub2 img.height : ℚ)
  then
    [(u.toNat, v.toNat), (u.toNat + 1, v.toNat),
      (u.toNat, v.toNat + 1), (u.toNat + 1, v.toNat + 1)]
  else []

/-- `rgb_image_from_fn` (the parallel and the sequential version build the
same raster: every output pixel is the generator's value). -/
def rgbImageFromFn (w h : ℕ) (f : ℕ → ℕ → Rgb) : Img := ⟨w, h, f⟩

/-- The background value `color_outside = Rgb([0, 0, 0])` (black). -/
def colorOutside : Rgb := ⟨0, 0, 0⟩

/-- `reverse_dense` of `moving-least-squares-image/src/lib.rs`: for every
destination pixel, deform with the control-point roles swapped, then sample
the source raster bilinearly, defaulting to black. -/
def reverse_dense (img : Img) (cs cd : List Point)
    (f : List Point → List Point → Point → Point) : Img :=
  rgbImageFromFn img.width img.height (fun x y =>
    let p2 := f cd cs ⟨(x : ℚ), (y : ℚ)⟩
    (bilinear img p2.x p2.y).getD colorOutside)

/-- The anchor grid of `reverse_sparse`: the MLS reprojections of the
subresolution matrix of points (row index `v`, column index `u`, anchor
spacing `subresolution_factor`).  Faithful for `1 ≤ width`, `1 ≤ height`
(for a zero dimension the `u32` subtraction `width - 1` would wrap). -/
def anchors (w h : ℕ) (cs cd : List Point) (factor : ℕ)
    (f : List Point → List Point → Point → Point) : List (List Point) :=
  (List.range ((h - 1) / factor + 2)).map (fun v =>
    (List.range ((w - 1) / factor + 2)).map (fun u =>
      f cd cs ⟨((u * factor : ℕ) : ℚ), ((v * factor : ℕ) : ℚ)⟩))

/-- `bilinear_warp`: bilinear interpolation of the deformation field inside
one anchor block (all corner coefficients are `u32` products cast to
`f32`; the caller guarantees `src_pos` lies within the block). -/
def bilinear_warp (topLeft botRight : ℕ × ℕ)
    (cornersDst : Point × Point × Point × Point) (srcPos : ℕ × ℕ) : Point :=
  let u := srcPos.1
  let v := srcPos.2
  let left := topLeft.1
  let top := topLeft.2
  let right := botRight.1
  let bottom := botRight.2
  let dtl := cornersDst.1
  let dtr := cornersDst.2.1
  let dbl := cornersDst.2.2.1
  let dbr := cornersDst.2.2.2
  let coefLeft := right - u
  let coefRight := u - left
  let coefTop := bottom - v
  let coefBot := v - top
  let coefTl := ((coefTop * coefLeft : ℕ) : ℚ)
  let coefTr := ((coefTop * coefRight : ℕ) : ℚ)
  let coefBl := ((coefBot * coefLeft : ℕ) : ℚ)
  let coefBr := ((coefBot * coefRight : ℕ) : ℚ)
  let area := (((right - left) * (bottom - top) : ℕ) : ℚ)
  ⟨(coefTl * dtl.x + coefTr * dtr.x + coefBl * dbl.x + coefBr * dbr.x) / area,
    (coefTl * dtl.y + coefTr * dtr.y + coefBl * dbl.y + coefBr * dbr.y) / area⟩

/-- The raster built by `reverse_sparse` after the anchor grid (the second
`rgb_image_from_fn` pass).  The anchor lookups `anchors[sub_top][sub_left]`
etc. are modeled with `getD` defaults; for destination pixels inside the
raster they are proven in bounds (claim C10). -/
def reverseSparseBody (img : Img) (cs cd : List Point) (factor : ℕ)
    (f : List Point → List Point → Point → Point) : Img :=
  let anc := anchors img.width img.height cs cd factor f
  rgbImageFromFn img.width img.height (fun x y =>
    let subLeft := x / factor
    let subTop := y / factor
    let topLeft := (factor * subLeft, factor * subTop)
    let botRight := (topLeft.1 + factor, topLeft.2 + factor)
    let cornersDst :=
      ((anc.getD subTop []).getD subLeft Point.zero,
        (anc.getD subTop []).getD (subLeft + 1) Point.zero,
        (anc.getD (subTop + 1) []).getD subLeft Point.zero,
        (anc.getD (subTop + 1) []).getD (subLeft + 1) Point.zero)
    let p2 := bilinear_warp topLeft botRight cornersDst (x, y)
    (bilinear img p2.x p2.y).getD colorOutside)

/-- `reverse_sparse` of `moving-least-squares-image/src/lib.rs`.  Its very
first statement divides by `subresolution_factor` (`u32` division), which
panics in Rust when the factor is zero — modeled as `none`. -/
def reverse_sparse (img : Img) (cs cd : List Point) (factor : ℕ)
    (f : List Point → List Point → Point → Point) : Option Img :=
  if factor = 0 then none
  else some (reverseSparseBody img cs cd factor f)

/-- Raster equality on the pixel domain: equal dimensions and equal pixels
at every in-range coordinate. -/
def ImgEq (a c : Img) : Prop :=
  a.width = c.width ∧ a.height = c.height ∧
    ∀ x < a.width, ∀ y < a.height, a.pix x y = c.pix x y

instance (a c : Img) : Decidable (ImgEq a c) := by
  unfold ImgEq
  infer_instance

/-- The kind-specific non-degeneracy at a query point: the affine solve
divides by `det(mp)`, the similarity and rigid solves divide by `μs`
(rigid by `μr`, which equals `μs` on identical control arrays). -/
def identNondeg (k : Kind) (P : List Point) (v : Point) : Prop :=
  match k with
  | .affine => (mpMat P v).det ≠ 0
  | .similarity => muS P v ≠ 0
  | .rigid => muS P v ≠ 0

/-- The identity matrix (not a source entity; used to state algebra facts). -/
def idMat : Mat2 := ⟨1, 0, 0, 1⟩

/-- The control points of the spec's round-trip scenario (§8). -/
def cps : List Point := [⟨0, 0⟩, ⟨10, 0⟩, ⟨0, 10⟩]

/-- A uniformly white 3x3 test raster. -/
def whiteImg3 : Img := ⟨3, 3, fun _ _ => ⟨255, 255, 255⟩⟩

/-- A uniformly white 4x4 test raster. -/
def whiteImg4 : Img := ⟨4, 4, fun _ _ => ⟨255, 255, 255⟩⟩

/-- The weighted covariance matrix `mp` of the round-trip control points
`cps`, written as a function of the three weights (an abbreviation for the
positivity proof; not a source entity). -/
def mpOf (w1 w2 w3 : ℚ) : Mat2 :=
  let px := 10 * w2 / (w1 + w2 + w3)
  let py := 10 * w3 / (w1 + w2 + w3)
  { m11 := w1 * ((0 - px) * (0 - px)) + w2 * ((10 - px) * (10 - px))
      + w3 * ((0 - px) * (0 - px))
    m21 := w1 * ((0 - py) * (0 - px)) + w2 * ((0 - py) * (10 - px))
      + w3 * ((10 - py) * (0 - px))
    m12 := w1 * ((0 - px) * (0 - py)) + w2 * ((10 - px) * (0 - py))
      + w3 * ((0 - px) * (10 - py))
    m22 := w1 * ((0 - py) * (0 - py)) + w2 * ((0 - py) * (0 - py))
      + w3 * ((10 - py) * (10 - py)) }

/-- The scale normalizer `μs` of the round-trip control points `cps` as a
function of the three weights (abbreviation for the positivity proof). -/
def muSOf (w1 w2 w3 : ℚ) : ℚ :=
  let px := 10 * w2 / (w1 + w2 + w3)
  let py := 10 * w3 / (w1 + w2 + w3)
  w1 * ((0 - px) * (0 - px) + (0 - py) * (0 - py))
    + w2 * ((10 - px) * (10 - px) + (0 - py) * (0 - py))
    + w3 * ((0 - px) * (0 - px) + (10 - py) * (10 - py))

/-- A 1x1 test raster. -/
def img1x1 : Img := ⟨1, 1, fun _ _ => ⟨7, 7, 7⟩⟩

-- Helper lemmas ---------------------------------------------------------------

@[simp] theorem Point.add_x (p q : Point) : (p + q).x = p.x + q.x := rfl

@[simp] theorem Point.add_y (p q : Point) : (p + q).y = p.y + q.y := rfl

@[simp] theorem Point.sub_x (p q : Point) : (p - q).x = p.x - q.x := rfl

@[simp] theorem Point.sub_y (p q : Point) : (p - q).y = p.y - q.y := rfl

@[simp] theorem Point.smul_x (a : ℚ) (p : Point) : (a • p).x = a * p.x := rfl

@[simp] theorem Point.smul_y (a : ℚ) (p : Point) : (a • p).y = a * p.y := rfl

@[simp] theorem Point.zero_x : (Point.zero).x = 0 := rfl

@[simp] theorem Point.zero_y : (Point.zero).y = 0 := rfl

@[simp] theorem Mat2.add_m11 (a c : Mat2) : (a + c).m11 = a.m11 + c.m11 := rfl

@[simp] theorem Mat2.add_m21 (a c : Mat2) : (a + c).m21 = a.m21 + c.m21 := rfl

@[simp] theorem Mat2.add_m12 (a c : Mat2) : (a + c).m12 = a.m12 + c.m12 := rfl

@[simp] theorem Mat2.add_m22 (a c : Mat2) : (a + c).m22 = a.m22 + c.m22 := rfl

@[simp] theorem Mat2.smul_m11 (s : ℚ) (a : Mat2) : (s • a).m11 = s * a.m11 := rfl

@[simp] theorem Mat2.smul_m21 (s : ℚ) (a : Mat2) : (s • a).m21 = s * a.m21 := rfl

@[simp] theorem Mat2.smul_m12 (s : ℚ) (a : Mat2) : (s • a).m12 = s * a.m12 := rfl

@[simp] theorem Mat2.smul_m22 (s : ℚ) (a : Mat2) : (s • a).m22 = s * a.m22 := rfl

@[simp] theorem Mat2.mul_m11 (a c : Mat2) :
    (a * c).m11 = a.m11 * c.m11 + a.m12 * c.m21 := rfl

@[simp] theorem Mat2.mul_m21 (a c : Mat2) :
    (a * c).m21 = a.m21 * c.m11 + a.m22 * c.m21 := rfl

@[simp] theorem Mat2.mul_m12 (a c : Mat2) :
    (a * c).m12 = a.m11 * c.m12 + a.m12 * c.m22 := rfl

@[simp] theorem Mat2.mul_m22 (a c : Mat2) :
    (a * c).m22 = a.m21 * c.m12 + a.m22 * c.m22 := rfl

@[simp] theorem Mat2.zero_m11 : (Mat2.zero).m11 = 0 := rfl

@[simp] theorem Mat2.zero_m21 : (Mat2.zero).m21 = 0 := rfl

@[simp] theorem Mat2.zero_m12 : (Mat2.zero).m12 = 0 := rfl

@[simp] theorem Mat2.zero_m22 : (Mat2.zero).m22 = 0 := rfl

theorem Point.padd_assoc (p q r : Point) : p + q + r = p + (q + r) := by
  ext <;> simp <;> ring

theorem Point.pzero_add (p : Point) : Point.zero + p = p := by
  ext <;> simp

theorem Mat2.madd_assoc (a c e : Mat2) : a + c + e = a + (c + e) := by
  ext <;> simp <;> ring

theorem Mat2.mzero_add (a : Mat2) : Mat2.zero + a = a := by
  ext <;> simp

theorem sumQ_cons (a : ℚ) (l : List ℚ) : sumQ (a :: l) = a + sumQ l := by
  unfold sumQ
  rw [List.foldl_cons]
  have h : ∀ (l : List ℚ) (b c : ℚ), l.foldl (· + ·) (b + c) = b + l.foldl (· + ·) c := by
    intro l
    induction l with
    | nil => intro b c; simp
    | cons d t ih =>
      intro b c
      rw [List.foldl_cons, List.foldl_cons, add_assoc]
      exact ih b (c + d)
  have := h l a 0
  simpa using this

theorem sumP_cons (a : Point) (l : List Point) : sumP (a :: l) = a + sumP l := by
  unfold sumP
  rw [List.foldl_cons]
  have h : ∀ (l : List Point) (b c : Point),
      l.foldl (· + ·) (b + c) = b + l.foldl (· + ·) c := by
    intro l
    induction l with
    | nil => intro b c; simp
    | cons d t ih =>
      intro b c
      rw [List.foldl_cons, List.foldl_cons, Point.padd_assoc]
      exact ih b (c + d)
  have h0 : Point.zero + a = a + Point.zero := by ext <;> simp
  rw [h0, h l a Point.zero]

theorem sumM_cons (a : Mat2) (l : List Mat2) : sumM (a :: l) = a + sumM l := by
  unfold sumM
  rw [List.foldl_cons]
  have h : ∀ (l : List Mat2) (b c : Mat2),
      l.foldl (· + ·) (b + c) = b + l.foldl (· + ·) c := by
    intro l
    induction l with
    | nil => intro b c; simp
    | cons d t ih =>
      intro b c
      rw [List.foldl_cons, List.foldl_cons, Mat2.madd_assoc]
      exact ih b (c + d)
  have h0 : Mat2.zero + a = a + Mat2.zero := by ext <;> simp
  rw [h0, h l a Mat2.zero]

@[simp] theorem sumQ_nil : sumQ [] = 0 := rfl

@[simp] theorem sumP_nil : sumP [] = Point.zero := rfl

@[simp] theorem sumM_nil : sumM [] = Mat2.zero := rfl

theorem sqrDist_eq_zero_iff (v p : Point) : sqrDist v p = 0 ↔ p = v := by
  unfold sqrDist Point.sqrNorm
  constructor
  · intro h
    simp only [Point.sub_x, Point.sub_y] at h
    have hx : (p.x - v.x) * (p.x - v.x) = 0 ∧ (p.y - v.y) * (p.y - v.y) = 0 := by
      constructor <;> nlinarith [mul_self_nonneg (p.x - v.x), mul_self_nonneg (p.y - v.y)]
    have h1 : p.x = v.x := by have := mul_self_eq_zero.mp hx.1; linarith
    have h2 : p.y = v.y := by have := mul_self_eq_zero.mp hx.2; linarith
    cases p; cases v
    simp_all
  · intro h
    subst h
    show (p - p).x * (p - p).x + (p - p).y * (p - p).y = 0
    show (p.x - p.x) * (p.x - p.x) + (p.y - p.y) * (p.y - p.y) = 0
    ring

theorem wSumInfinite_iff (P : List Point) (v : Point) :
    wSumInfinite P v = true ↔ v ∈ P := by
  unfold wSumInfinite
  rw [List.any_eq_true]
  constructor
  · rintro ⟨p, hp, hd⟩
    rw [decide_eq_true_iff] at hd
    exact (sqrDist_eq_zero_iff v p).mp hd ▸ hp
  · intro hv
    exact ⟨v, hv, by rw [decide_eq_true_iff]; exact (sqrDist_eq_zero_iff v v).mpr rfl⟩

theorem infIdx_spec (P : List Point) (v : Point) (i : ℕ) (hi : i < P.length)
    (heq : P.getD i Point.zero = v)
    (hfirst : ∀ j < i, P.getD j Point.zero ≠ v) : infIdx P v = i := by
  unfold infIdx
  induction P generalizing i with
  | nil => simp at hi
  | cons a l ih =>
    rw [List.findIdx_cons]
    cases i with
    | zero =>
      simp only [List.getD_cons_zero] at heq
      rw [heq] at *
      have : decide (sqrDist v v = 0) = true := by
        rw [decide_eq_true_iff]; exact (sqrDist_eq_zero_iff v v).mpr rfl
      simp [this]
    | succ j =>
      have ha : a ≠ v := by
        have := hfirst 0 (Nat.succ_pos j)
        simpa using this
      have hd : decide (sqrDist v a = 0) = false := by
        rw [decide_eq_false_iff_not]
        intro h
        exact ha ((sqrDist_eq_zero_iff v a).mp h)
      rw [hd]
      simp only [cond_false]
      have : l.findIdx (fun p => decide (sqrDist v p = 0)) = j := by
        apply ih
        · simpa using hi
        · simpa using heq
        · intro k hk
          have := hfirst (k + 1) (Nat.succ_lt_succ hk)
          simpa using this
      omega

theorem getD_infIdx (P : List Point) (v : Point) (hv : v ∈ P) :
    P.getD (infIdx P v) Point.zero = v := by
  unfold infIdx
  induction P with
  | nil => simp at hv
  | cons a l ih =>
    rw [List.findIdx_cons]
    by_cases hd : sqrDist v a = 0
    · have : decide (sqrDist v a = 0) = true := decide_eq_true hd
      rw [this]
      simpa using (sqrDist_eq_zero_iff v a).mp hd
    · have hne : a ≠ v := fun h => hd ((sqrDist_eq_zero_iff v a).mpr h)
      have : decide (sqrDist v a = 0) = false := decide_eq_false hd
      rw [this]
      simp only [cond_false]
      have hvl : v ∈ l := by
        rcases List.mem_cons.mp hv with h | h
        · exact absurd h.symm hne
        · exact h
      simpa using ih hvl

theorem wSumInfinite_eq_false (P : List Point) (v : Point) (hv : v ∉ P) :
    wSumInfinite P v = false := by
  rw [← Bool.not_eq_true, wSumInfinite_iff]
  exact hv

/-- Short-circuit identity: a query equal to some control point maps to
itself when destination equals source. -/
theorem deform_self_mem (k : Kind) (P : List Point) (v : Point) (hv : v ∈ P) :
    deform k P P v = v := by
  have hg : wSumInfinite P v = true := (wSumInfinite_iff P v).mpr hv
  have hd := getD_infIdx P v hv
  cases k
  · show deform_affine P P v = v
    unfold deform_affine
    rw [if_pos hg]
    exact hd
  · show deform_similarity P P v = v
    unfold deform_similarity
    rw [if_pos hg]
    exact hd
  · show deform_rigid P P v = v
    unfold deform_rigid
    rw [if_pos hg]
    exact hd

-- Map forms of the internal sums (rewriting the `zip`s of equal-length
-- maps of the control list into single maps) --------------------------------

theorem zip_wAll_pHat (P : List Point) (v : Point) :
    (wAll P v).zip (pHat P v)
      = P.map (fun p => (1 / sqrDist v p, p - pStar P v)) := by
  unfold wAll pHat
  rw [List.zip_map']

theorem qStar_self (P : List Point) (v : Point) : qStar P P v = pStar P v := rfl

theorem qHat_self (P : List Point) (v : Point) : qHat P P v = pHat P v := rfl

theorem smul_timesTranspose (w : ℚ) (a c : Point) :
    (w • a).timesTranspose c = w • a.timesTranspose c := by
  ext <;> simp [Point.timesTranspose] <;> ring

theorem mpMat_eq_map (P : List Point) (v : Point) :
    mpMat P v = sumM (P.map (fun p =>
      (1 / sqrDist v p) • ((p - pStar P v).timesTranspose (p - pStar P v)))) := by
  unfold mpMat
  rw [zip_wAll_pHat, List.map_map]
  rfl

theorem mqMat_self (P : List Point) (v : Point) : mqMat P P v = mpMat P v := by
  unfold mqMat
  rw [mpMat_eq_map]
  have hz : ((wAll P v).zip (pHat P v)).zip P
      = P.map (fun p => ((1 / sqrDist v p, p - pStar P v), p)) := by
    rw [zip_wAll_pHat]
    have := List.zip_map' (fun p : Point => (1 / sqrDist v p, p - pStar P v))
      (fun p : Point => p) P
    simpa using this
  rw [hz, List.map_map]
  apply congrArg
  apply List.map_congr_left
  intro p _
  simp only [Function.comp]
  rw [qStar_self, smul_timesTranspose]

theorem muS_eq_map (P : List Point) (v : Point) :
    muS P v = sumQ (P.map (fun p =>
      (1 / sqrDist v p) * (p - pStar P v).sqrNorm)) := by
  unfold muS
  rw [zip_wAll_pHat, List.map_map]
  rfl

theorem zip3_self (P : List Point) (v : Point) :
    ((wAll P v).zip (pHat P v)).zip (qHat P P v)
      = P.map (fun p => ((1 / sqrDist v p, p - pStar P v), p - pStar P v)) := by
  rw [qHat_self, zip_wAll_pHat]
  unfold pHat
  have := List.zip_map' (fun p : Point => (1 / sqrDist v p, p - pStar P v))
    (fun p : Point => p - pStar P v) P
  simpa using this

theorem aMat_mul_self (p : Point) : aMat p * aMat p = p.sqrNorm • idMat := by
  ext <;> simp [aMat, idMat, Point.sqrNorm] <;> ring

theorem smul_smul_mat (a c : ℚ) (A : Mat2) : a • c • A = (a * c) • A := by
  ext <;> simp <;> ring

theorem add_smul_mat (a c : ℚ) (A : Mat2) : (a + c) • A = a • A + c • A := by
  ext <;> simp <;> ring

theorem sumM_map_smul_const {α : Type} (l : List α) (c : α → ℚ) (A : Mat2) :
    sumM (l.map (fun e => c e • A)) = sumQ (l.map c) • A := by
  induction l with
  | nil => ext <;> simp
  | cons a t ih =>
    rw [List.map_cons, List.map_cons, sumM_cons, sumQ_cons, ih, add_smul_mat]

theorem mSimRaw_self (P : List Point) (v : Point) :
    mSimRaw P P v = muS P v • idMat := by
  unfold mSimRaw
  rw [zip3_self, List.map_map]
  have hmap : (P.map ((fun wpq : (ℚ × Point) × Point =>
        wpq.1.1 • (aMat wpq.1.2 * aMat wpq.2)) ∘
        (fun p => ((1 / sqrDist v p, p - pStar P v), p - pStar P v))))
      = P.map (fun p =>
        ((1 / sqrDist v p) * (p - pStar P v).sqrNorm) • idMat) := by
    apply List.map_congr_left
    intro p _
    simp only [Function.comp]
    rw [aMat_mul_self, smul_smul_mat]
  rw [hmap, sumM_map_smul_const, muS_eq_map]

theorem Point.dot_self (p : Point) : p.dot p = p.sqrNorm := rfl

theorem Point.dot_perp_self (p : Point) : p.dot ⟨-p.y, p.x⟩ = 0 := by
  simp [Point.dot]
  ring

theorem sumP_map_mk_zero {α : Type} (l : List α) (c : α → ℚ) :
    sumP (l.map (fun e => Point.mk (c e) 0)) = ⟨sumQ (l.map c), 0⟩ := by
  induction l with
  | nil => ext <;> simp
  | cons a t ih =>
    rw [List.map_cons, List.map_cons, sumP_cons, sumQ_cons, ih]
    ext <;> simp

theorem muRvec_self (P : List Point) (v : Point) :
    muRvec P P v = ⟨muS P v, 0⟩ := by
  unfold muRvec
  rw [zip3_self, List.map_map]
  have hmap : (P.map ((fun wpq : (ℚ × Point) × Point =>
        Point.mk (wpq.1.1 * wpq.2.dot wpq.1.2)
          (wpq.1.1 * wpq.2.dot (Point.mk (-wpq.1.2.y) wpq.1.2.x))) ∘
        (fun p => ((1 / sqrDist v p, p - pStar P v), p - pStar P v))))
      = P.map (fun p =>
        Point.mk ((1 / sqrDist v p) * (p - pStar P v).sqrNorm) 0) := by
    apply List.map_congr_left
    intro p _
    simp only [Function.comp]
    rw [Point.dot_self, Point.dot_perp_self, mul_zero]
  rw [hmap, sumP_map_mk_zero, muS_eq_map]

theorem Point.sqrNorm_nonneg (p : Point) : 0 ≤ p.sqrNorm :=
  add_nonneg (mul_self_nonneg _) (mul_self_nonneg _)

theorem sqrDist_nonneg (v p : Point) : 0 ≤ sqrDist v p :=
  Point.sqrNorm_nonneg _

theorem sumQ_nonneg (l : List ℚ) (h : ∀ a ∈ l, 0 ≤ a) : 0 ≤ sumQ l := by
  induction l with
  | nil => simp
  | cons a t ih =>
    rw [sumQ_cons]
    exact add_nonneg (h a (List.mem_cons_self a t))
      (ih (fun b hb => h b (List.mem_cons_of_mem a hb)))

theorem muS_nonneg (P : List Point) (v : Point) : 0 ≤ muS P v := by
  rw [muS_eq_map]
  apply sumQ_nonneg
  intro a ha
  obtain ⟨p, _, rfl⟩ := List.mem_map.mp ha
  exact mul_nonneg (one_div_nonneg.mpr (sqrDist_nonneg v p))
    (Point.sqrNorm_nonneg (p - pStar P v))

theorem muR_self (P : List Point) (v : Point) :
    muR P P v = muS P v := by
  unfold muR
  rw [muRvec_self]
  have h : (Point.mk (muS P v) 0).sqrNorm = muS P v * muS P v := by
    simp [Point.sqrNorm]
  rw [h, Rat.sqrt_eq, abs_of_nonneg (muS_nonneg P v)]

-- Matrix algebra for the identity results ------------------------------------

theorem transposeMul_mul (x : Point) (A B : Mat2) :
    (x.transposeMul A).transposeMul B = x.transposeMul (A * B) := by
  ext <;> simp [Point.transposeMul] <;> ring

theorem transposeMul_id (x : Point) : x.transposeMul idMat = x := by
  ext <;> simp [Point.transposeMul, idMat]

theorem inv_mul_self (A : Mat2) (h : A.det ≠ 0) : A.inv * A = idMat := by
  have hd : A.m11 * A.m22 - A.m21 * A.m12 ≠ 0 := h
  ext <;> simp [Mat2.inv, Mat2.det, idMat] <;> field_simp <;> ring

theorem smul_transposeMul (x : Point) (s : ℚ) (A : Mat2) :
    x.transposeMul (s • A) = s • x.transposeMul A := by
  ext <;> simp [Point.transposeMul] <;> ring

/-- Identity of the affine variant away from control points, given a
nonsingular weighted covariance matrix. -/
theorem deform_affine_self (P : List Point) (v : Point) (hv : v ∉ P)
    (hdet : (mpMat P v).det ≠ 0) : deform_affine P P v = v := by
  unfold deform_affine
  rw [wSumInfinite_eq_false P v hv]
  simp only [Bool.false_eq_true, if_false]
  rw [mqMat_self, qStar_self, transposeMul_mul, inv_mul_self _ hdet,
    transposeMul_id]
  ext <;> simp

/-- Identity of the similarity variant away from control points, given a
nonzero scale normalizer. -/
theorem deform_similarity_self (P : List Point) (v : Point) (hv : v ∉ P)
    (hmu : muS P v ≠ 0) : deform_similarity P P v = v := by
  unfold deform_similarity
  rw [wSumInfinite_eq_false P v hv]
  simp only [Bool.false_eq_true, if_false]
  rw [mSimRaw_self, qStar_self, smul_smul_mat, one_div,
    inv_mul_cancel₀ hmu]
  have hone : (1 : ℚ) • idMat = idMat := by ext <;> simp [idMat]
  rw [hone, transposeMul_id]
  ext <;> simp

/-- Identity of the rigid variant away from control points, given a nonzero
scale normalizer (so that `μr = μs ≠ 0`). -/
theorem deform_rigid_self (P : List Point) (v : Point) (hv : v ∉ P)
    (hmu : muS P v ≠ 0) : deform_rigid P P v = v := by
  unfold deform_rigid
  rw [wSumInfinite_eq_false P v hv]
  simp only [Bool.false_eq_true, if_false]
  rw [muR_self, mSimRaw_self, qStar_self, smul_smul_mat, one_div,
    inv_mul_cancel₀ hmu]
  have hone : (1 : ℚ) • idMat = idMat := by ext <;> simp [idMat]
  rw [hone, transposeMul_id]
  ext <;> simp

-- Claim theorems --------------------------------------------------------------

/-- C1: for every transform kind and control-point arrays of equal length,
if the query point coincides exactly with some source control point (zero
squared distance, i.e. infinite weight, hence an infinite weight sum), then
`deform` short-circuits and returns the destination point of the *first*
index whose weight is infinite; in particular `deform(kind, P, Q, P[i]) = Q[i]`
whenever `P[i]` is the first control point equal to the query. -/
theorem claim_C1_exact_match_short_circuit (k : Kind) (P Q : List Point)
    (v : Point) (i : ℕ) (_hlen : P.length = Q.length) (hi : i < P.length)
    (heq : P.getD i Point.zero = v)
    (hfirst : ∀ j < i, P.getD j Point.zero ≠ v) :
    deform k P Q v = Q.getD i Point.zero := by
  have hv : v ∈ P := by
    rw [← heq, List.getD_eq_getElem P Point.zero hi]
    exact List.getElem_mem hi
  have hg : wSumInfinite P v = true := (wSumInfinite_iff P v).mpr hv
  have hidx : infIdx P v = i := infIdx_spec P v i hi heq hfirst
  cases k <;>
    simp [deform, deform_affine, deform_similarity, deform_rigid, hg, hidx]

/-- C3 counterexample: with a single control point (allowed by the claim,
which quantifies over every array of length at least one) and identical
source and destination arrays, the affine solve divides by the determinant
of the zero covariance matrix; the result is not the query point.  (In the
`f32` source the same input produces NaN coordinates — also not the query
point; the exact model returns the junk value of the zero-division
convention.) -/
theorem claim_C3_counterexample :
    ¬ (deform .affine [Point.mk 0 0] [Point.mk 0 0] ⟨1, 0⟩ = ⟨1, 0⟩) := by
  with_unfolding_all decide

/-- C3 (amended): the identity property `deform(kind, P, P, v) = v` holds
whenever the query coincides with a control point (short-circuit), or the
kind-specific quantity the solve divides by is nonzero (`det(mp)` for
affine, `μs` for similarity and rigid).  Degenerate configurations (e.g. a
single control point) are excluded: there the division by zero yields
non-finite output, as §4.2 of the spec itself notes. -/
theorem claim_C3_identity (k : Kind) (P : List Point) (v : Point)
    (h : v ∈ P ∨ identNondeg k P v) :
    deform k P P v = v := by
  by_cases hv : v ∈ P
  · exact deform_self_mem k P v hv
  · rcases h with h | h
    · exact absurd h hv
    · cases k
      · exact deform_affine_self P v hv h
      · exact deform_similarity_self P v hv h
      · exact deform_rigid_self P v hv h

/-- Witness for C3: two distinct control points, rigid kind, query off the
control points. -/
theorem claim_C3_witness :
    deform .rigid [⟨0, 0⟩, ⟨2, 0⟩] [⟨0, 0⟩, ⟨2, 0⟩] ⟨1, 1⟩ = ⟨1, 1⟩ :=
  claim_C3_identity .rigid [⟨0, 0⟩, ⟨2, 0⟩] ⟨1, 1⟩
    (Or.inr (show muS [⟨0, 0⟩, ⟨2, 0⟩] ⟨1, 1⟩ ≠ 0 by with_unfolding_all decide))

theorem wrapSub2_eq (w : ℕ) (h2 : 2 ≤ w) (h32 : w < 2 ^ 32) :
    wrapSub2 w = w - 2 := by
  unfold wrapSub2
  omega

theorem bilinear_isSome_iff (img : Img) (h2w : 2 ≤ img.width)
    (hw32 : img.width < 2 ^ 32) (h2h : 2 ≤ img.height)
    (hh32 : img.height < 2 ^ 32) (x y : ℚ) :
    (bilinear img x y).isSome
      ↔ (0 ≤ x ∧ x < (img.width : ℚ) - 2 ∧ 0 ≤ y ∧ y < (img.height : ℚ) - 2) := by
  have hwc : ((wrapSub2 img.width : ℕ) : ℚ) = ((img.width : ℤ) - 2 : ℤ) := by
    rw [wrapSub2_eq _ h2w hw32]
    push_cast [Nat.cast_sub h2w]
    ring
  have hhc : ((wrapSub2 img.height : ℕ) : ℚ) = ((img.height : ℤ) - 2 : ℤ) := by
    rw [wrapSub2_eq _ h2h hh32]
    push_cast [Nat.cast_sub h2h]
    ring
  have hiff : (0 ≤ ⌊x⌋ ∧ ((⌊x⌋ : ℤ) : ℚ) < ((wrapSub2 img.width : ℕ) : ℚ)
        ∧ 0 ≤ ⌊y⌋ ∧ ((⌊y⌋ : ℤ) : ℚ) < ((wrapSub2 img.height : ℕ) : ℚ))
      ↔ (0 ≤ x ∧ x < (img.width : ℚ) - 2 ∧ 0 ≤ y ∧ y < (img.height : ℚ) - 2) := by
    rw [hwc, hhc, Int.cast_lt, Int.cast_lt, Int.floor_lt, Int.floor_lt]
    have h0x : (0 ≤ ⌊x⌋) ↔ (0 : ℚ) ≤ x := by
      rw [Int.le_floor]
      norm_num
    have h0y : (0 ≤ ⌊y⌋) ↔ (0 : ℚ) ≤ y := by
      rw [Int.le_floor]
      norm_num
    rw [h0x, h0y]
    constructor
    · rintro ⟨a, b, c, d⟩
      refine ⟨a, ?_, c, ?_⟩ <;> [skip; skip] <;> push_cast at b d ⊢ <;> linarith
    · rintro ⟨a, b, c, d⟩
      refine ⟨a, ?_, c, ?_⟩ <;> push_cast <;> linarith
  by_cases hc : (0 ≤ ⌊x⌋ ∧ ((⌊x⌋ : ℤ) : ℚ) < ((wrapSub2 img.width : ℕ) : ℚ)
      ∧ 0 ≤ ⌊y⌋ ∧ ((⌊y⌋ : ℤ) : ℚ) < ((wrapSub2 img.height : ℕ) : ℚ))
  · rw [← hiff]
    simp only [bilinear]
    rw [if_pos hc]
    simpa using hc
  · rw [← hiff]
    simp only [bilinear]
    rw [if_neg hc]
    simpa using hc

/-- C6: the bilinear sampler (at the `Rgb<u8>` instantiation the warpers
use) returns a value exactly on the conservative region
`[0, width-2) × [0, height-2)` of floating coordinates — i.e. it returns
no value for coordinates within one unit of the far sampleable edge
(`x ≥ width-2`, which includes the whole last two columns) or outside the
raster, and an interpolated pixel inside; no fallback pixel read is ever
needed (the four reads it performs are then in bounds). -/
theorem claim_C6_bilinear_bounds (img : Img) (h2w : 2 ≤ img.width)
    (hw32 : img.width < 2 ^ 32) (h2h : 2 ≤ img.height)
    (hh32 : img.height < 2 ^ 32) (x y : ℚ) :
    ((bilinear img x y).isSome
        ↔ (0 ≤ x ∧ x < (img.width : ℚ) - 2 ∧ 0 ≤ y ∧ y < (img.height : ℚ) - 2))
      ∧ ∀ rd ∈ bilinearReads img x y, rd.1 + 1 < img.width ∧ rd.2 + 1 < img.height := by
  refine ⟨bilinear_isSome_iff img h2w hw32 h2h hh32 x y, ?_⟩
  intro rd hrd
  unfold bilinearReads at hrd
  by_cases hc : (0 ≤ ⌊x⌋ ∧ ((⌊x⌋ : ℤ) : ℚ) < ((wrapSub2 img.width : ℕ) : ℚ)
      ∧ 0 ≤ ⌊y⌋ ∧ ((⌊y⌋ : ℤ) : ℚ) < ((wrapSub2 img.height : ℕ) : ℚ))
  · rw [if_pos hc] at hrd
    obtain ⟨hu0, hu, hv0, hv⟩ := hc
    rw [wrapSub2_eq _ h2w hw32] at hu
    rw [wrapSub2_eq _ h2h hh32] at hv
    have hux : ⌊x⌋ < (img.width : ℤ) - 2 := by
      have : ((⌊x⌋ : ℤ) : ℚ) < (((img.width - 2 : ℕ) : ℤ) : ℚ) := by
        exact_mod_cast hu
      have h2 : (⌊x⌋ : ℤ) < ((img.width - 2 : ℕ) : ℤ) := by exact_mod_cast this
      omega
    have hvy : ⌊y⌋ < (img.height : ℤ) - 2 := by
      have : ((⌊y⌋ : ℤ) : ℚ) < (((img.height - 2 : ℕ) : ℤ) : ℚ) := by
        exact_mod_cast hv
      have h2 : (⌊y⌋ : ℤ) < ((img.height - 2 : ℕ) : ℤ) := by exact_mod_cast this
      omega
    have hxw : ⌊x⌋.toNat + 1 + 1 < img.width := by omega
    have hyh : ⌊y⌋.toNat + 1 + 1 < img.height := by omega
    fin_cases hrd <;> constructor <;> simp <;> omega
  · rw [if_neg hc] at hrd
    simp at hrd

/-- Witness for C6: a 3x3 raster; the sample at `(1/2, 1/2)` is inside the
conservative region, so the sampler returns a value. -/
theorem claim_C6_witness :
    ((bilinear whiteImg3 (1 / 2) (1 / 2)).isSome
        ↔ (0 ≤ (1 / 2 : ℚ) ∧ (1 / 2 : ℚ) < (whiteImg3.width : ℚ) - 2
            ∧ 0 ≤ (1 / 2 : ℚ) ∧ (1 / 2 : ℚ) < (whiteImg3.height : ℚ) - 2))
      ∧ ∀ rd ∈ bilinearReads whiteImg3 (1 / 2) (1 / 2),
          rd.1 + 1 < whiteImg3.width ∧ rd.2 + 1 < whiteImg3.height :=
  claim_C6_bilinear_bounds whiteImg3 (by decide) (by decide) (by decide)
    (by decide) (1 / 2) (1 / 2)

/-- C2: the dense warper preserves the raster dimensions and computes every
destination pixel `(x, y)` as the bilinear sample of the source raster at
`deform(kind, destControlPoints, sourceControlPoints, (x, y))` — the
control-point roles are swapped (reverse pull sampling) — defaulting to
the black background value when the sampler returns no value. -/
theorem claim_C2_reverse_dense (img : Img) (cs cd : List Point) (k : Kind) :
    (reverse_dense img cs cd (deform k)).width = img.width
      ∧ (reverse_dense img cs cd (deform k)).height = img.height
      ∧ ∀ x y : ℕ,
          (reverse_dense img cs cd (deform k)).pix x y
            = (bilinear img (deform k cd cs ⟨(x : ℚ), (y : ℚ)⟩).x
                (deform k cd cs ⟨(x : ℚ), (y : ℚ)⟩).y).getD colorOutside :=
  ⟨rfl, rfl, fun _ _ => rfl⟩

/-- C9 (the code slip, exhibited on the failing input): on a 1x1 raster, a
control configuration that sends the destination pixel `(0,0)` to the
out-of-bounds source coordinate `(6/5, 3/10)` makes the sampler's bounds
test pass anyway — the `u32` expression `width - 2` wraps around for
`width = 1` — and the sampler then performs the pixel read `(1, 0)`, which
is outside the raster width (an out-of-range `get_pixel`, i.e. a panic in
Rust, where the claim requires the background value to be written and no
out-of-range read ever to occur). -/
theorem claim_C9_oob_read_on_tiny_raster :
    deform .affine [⟨0, 0⟩] [⟨6 / 5, 3 / 10⟩] ⟨0, 0⟩ = Point.mk (6 / 5) (3 / 10)
      ∧ ¬ ((6 / 5 : ℚ) < (img1x1.width : ℚ))
      ∧ (1, 0) ∈ bilinearReads img1x1 (6 / 5) (3 / 10)
      ∧ ¬ ((1, 0).1 < img1x1.width) := by
  refine ⟨?_, ?_, ?_, ?_⟩ <;> with_unfolding_all decide

/-- C5 counterexample: `deform` called with three source control points but
only two destination points (a contract violation the claim says is
rejected at the call boundary) is not rejected: it silently computes a
deformed point from the zip-truncated data. -/
theorem claim_C5_counterexample :
    deform_affine [⟨0, 0⟩, ⟨4, 0⟩, ⟨0, 4⟩] [⟨1, 1⟩, ⟨5, 1⟩] ⟨1, 2⟩
      = Point.mk (3073 / 1922) (1051 / 1922) := by
  norm_num [deform_affine, wSumInfinite, wAll, wSum, sumQ, sumP, sumM, pStar,
    qStar, pHat, mpMat, mqMat, sqrDist, Point.sqrNorm, Point.timesTranspose,
    Point.transposeMul, Mat2.inv, Mat2.det, infIdx, Point.ext_iff]

/-- C5 (amended): no contract validation happens at any call boundary.
Whenever no control point coincides with the query, each `deform` variant
unconditionally computes its weighted solve — irrespective of mismatched
or empty control arrays, whose extra entries are silently dropped by `zip`
(and whose empty case divides by zero) — and the only rejected input is a
zero subresolution factor, which stops `reverse_sparse` on its very first
statement with a division-by-zero panic rather than a boundary check. -/
theorem claim_C5_no_validation :
    (∀ (P Q : List Point) (v : Point), wSumInfinite P v = false →
        deform_affine P Q v
          = ((v - pStar P v).transposeMul (mpMat P v).inv).transposeMul
              (mqMat P Q v) + qStar P Q v)
      ∧ (∀ (P Q : List Point) (v : Point), wSumInfinite P v = false →
          deform_similarity P Q v
            = (v - pStar P v).transposeMul ((1 / muS P v) • mSimRaw P Q v)
                + qStar P Q v)
      ∧ (∀ (P Q : List Point) (v : Point), wSumInfinite P v = false →
          deform_rigid P Q v
            = (v - pStar P v).transposeMul ((1 / muR P Q v) • mSimRaw P Q v)
                + qStar P Q v)
      ∧ (∀ (img : Img) (cs cd : List Point)
          (f : List Point → List Point → Point → Point),
          reverse_sparse img cs cd 0 f = none) := by
  refine ⟨?_, ?_, ?_, fun img cs cd f => rfl⟩
  · intro P Q v hg
    unfold deform_affine
    rw [if_neg (by simp [hg])]
  · intro P Q v hg
    unfold deform_similarity
    rw [if_neg (by simp [hg])]
  · intro P Q v hg
    unfold deform_rigid
    rw [if_neg (by simp [hg])]

/-- Witness for C5: the no-validation equations evaluated at the
mismatched-length input of the counterexample. -/
theorem claim_C5_witness :
    deform_affine [⟨0, 0⟩, ⟨4, 0⟩, ⟨0, 4⟩] [⟨1, 1⟩, ⟨5, 1⟩] ⟨1, 2⟩
      = ((Point.mk 1 2 - pStar [⟨0, 0⟩, ⟨4, 0⟩, ⟨0, 4⟩] ⟨1, 2⟩).transposeMul
          (mpMat [⟨0, 0⟩, ⟨4, 0⟩, ⟨0, 4⟩] ⟨1, 2⟩).inv).transposeMul
          (mqMat [⟨0, 0⟩, ⟨4, 0⟩, ⟨0, 4⟩] [⟨1, 1⟩, ⟨5, 1⟩] ⟨1, 2⟩)
        + qStar [⟨0, 0⟩, ⟨4, 0⟩, ⟨0, 4⟩] [⟨1, 1⟩, ⟨5, 1⟩] ⟨1, 2⟩ :=
  claim_C5_no_validation.1 [⟨0, 0⟩, ⟨4, 0⟩, ⟨0, 4⟩] [⟨1, 1⟩, ⟨5, 1⟩] ⟨1, 2⟩
    (by with_unfolding_all decide)

theorem anchors_length (w h : ℕ) (cs cd : List Point) (factor : ℕ)
    (f : List Point → List Point → Point → Point) :
    (anchors w h cs cd factor f).length = (h - 1) / factor + 2 := by
  simp [anchors]

theorem anchors_row_length (w h : ℕ) (cs cd : List Point) (factor : ℕ)
    (f : List Point → List Point → Point → Point) (row : List Point)
    (hrow : row ∈ anchors w h cs cd factor f) :
    row.length = (w - 1) / factor + 2 := by
  unfold anchors at hrow
  obtain ⟨vv, _, rfl⟩ := List.mem_map.mp hrow
  simp

theorem anchors_entry (w h : ℕ) (cs cd : List Point) (factor : ℕ)
    (f : List Point → List Point → Point → Point) (vv uu : ℕ)
    (hv : vv < (h - 1) / factor + 2) (hu : uu < (w - 1) / factor + 2) :
    ((anchors w h cs cd factor f).getD vv []).getD uu Point.zero
      = f cd cs ⟨((uu * factor : ℕ) : ℚ), ((vv * factor : ℕ) : ℚ)⟩ := by
  unfold anchors
  have hrow : ((List.range ((h - 1) / factor + 2)).map (fun v =>
        (List.range ((w - 1) / factor + 2)).map (fun u =>
          f cd cs ⟨((u * factor : ℕ) : ℚ), ((v * factor : ℕ) : ℚ)⟩))).getD vv []
      = (List.range ((w - 1) / factor + 2)).map (fun u =>
          f cd cs ⟨((u * factor : ℕ) : ℚ), ((vv * factor : ℕ) : ℚ)⟩) := by
    rw [List.getD_eq_getElem _ _ (by simpa using hv), List.getElem_map,
      List.getElem_range]
  rw [hrow, List.getD_eq_getElem _ _ (by simpa using hu), List.getElem_map,
    List.getElem_range]

/-- C7 counterexample: for a 4x4 raster and factor 2, the code's anchor
grid has `(4-1)/2 + 2 = 3` rows (truncating division), not the
`⌈(4-1)/2⌉ + 2 = 4` rows the claim states. -/
theorem claim_C7_counterexample :
    ¬ ((anchors 4 4 [] [] 2 (fun _ _ v => v)).length = 4) := by
  with_unfolding_all decide

/-- C7 (amended): for `width, height ≥ 1` and `factor ≥ 1`, the sparse
warper builds an anchor grid of `⌊(height-1)/factor⌋ + 2` rows and
`⌊(width-1)/factor⌋ + 2` columns (truncating integer division, not the
ceiling), whose entry `(u, v)` is the deform function's value at the point
`(u·factor, v·factor)` — anchors spaced exactly `factor` pixels apart,
each evaluated with the full solver. -/
theorem claim_C7_anchor_grid (w h : ℕ) (_hw : 1 ≤ w) (_hh : 1 ≤ h)
    (factor : ℕ) (_hf : 1 ≤ factor) (cs cd : List Point)
    (f : List Point → List Point → Point → Point) :
    (anchors w h cs cd factor f).length = (h - 1) / factor + 2
      ∧ (∀ row ∈ anchors w h cs cd factor f, row.length = (w - 1) / factor + 2)
      ∧ ∀ vv < (h - 1) / factor + 2, ∀ uu < (w - 1) / factor + 2,
          ((anchors w h cs cd factor f).getD vv []).getD uu Point.zero
            = f cd cs ⟨((uu * factor : ℕ) : ℚ), ((vv * factor : ℕ) : ℚ)⟩ :=
  ⟨anchors_length w h cs cd factor f,
    anchors_row_length w h cs cd factor f,
    fun vv hv uu hu => anchors_entry w h cs cd factor f vv uu hv hu⟩

/-- Witness for C7: a 4x4 raster with factor 3; the grid is 3x3 and the
anchor (1,1) is the deform value at (3,3). -/
theorem claim_C7_witness :
    (anchors 4 4 [] [] 3 (fun _ _ v => v)).length = (4 - 1) / 3 + 2
      ∧ (∀ row ∈ anchors 4 4 [] [] 3 (fun _ _ v => v),
          row.length = (4 - 1) / 3 + 2)
      ∧ ∀ vv < (4 - 1) / 3 + 2, ∀ uu < (4 - 1) / 3 + 2,
          ((anchors 4 4 [] [] 3 (fun _ _ v => v)).getD vv []).getD uu Point.zero
            = (fun (_ _ : List Point) (v : Point) => v) [] []
                ⟨((uu * 3 : ℕ) : ℚ), ((vv * 3 : ℕ) : ℚ)⟩ :=
  claim_C7_anchor_grid 4 4 (by decide) (by decide) 3 (by decide) [] []
    (fun _ _ v => v)

/-- C10: for every raster with `width, height ≥ 1`, factor `≥ 1`, and
destination pixel `(x, y)` inside the raster, the anchor indices of the
per-pixel pass satisfy `x/f + 1 ≤ (width-1)/f + 1` and
`y/f + 1 ≤ (height-1)/f + 1`, so all four lookups
`anchors[sub_top][sub_left]`, `anchors[sub_top][sub_left+1]`,
`anchors[sub_top+1][sub_left]`, `anchors[sub_top+1][sub_left+1]` fall
inside the anchor grid (the second pass never indexes out of it). -/
theorem claim_C10_sparse_lookups_in_bounds (w h factor x y : ℕ)
    (_hf : 1 ≤ factor) (hx : x < w) (hy : y < h) (cs cd : List Point)
    (f : List Point → List Point → Point → Point) :
    x / factor + 1 ≤ (w - 1) / factor + 1
      ∧ y / factor + 1 ≤ (h - 1) / factor + 1
      ∧ y / factor + 1 < (anchors w h cs cd factor f).length
      ∧ ∀ row ∈ anchors w h cs cd factor f, x / factor + 1 < row.length := by
  have hdx : x / factor ≤ (w - 1) / factor :=
    Nat.div_le_div_right (by omega)
  have hdy : y / factor ≤ (h - 1) / factor :=
    Nat.div_le_div_right (by omega)
  refine ⟨by omega, by omega, ?_, ?_⟩
  · rw [anchors_length]
    omega
  · intro row hrow
    rw [anchors_row_length w h cs cd factor f row hrow]
    omega

/-- Witness for C10: a 5x4 raster, factor 3, bottom-right pixel (4,3). -/
theorem claim_C10_witness :
    4 / 3 + 1 ≤ (5 - 1) / 3 + 1
      ∧ 3 / 3 + 1 ≤ (4 - 1) / 3 + 1
      ∧ 3 / 3 + 1 < (anchors 5 4 [] [] 3 (fun _ _ v => v)).length
      ∧ ∀ row ∈ anchors 5 4 [] [] 3 (fun _ _ v => v), 4 / 3 + 1 < row.length :=
  claim_C10_sparse_lookups_in_bounds 5 4 3 4 3 (by decide) (by decide)
    (by decide) [] [] (fun _ _ v => v)

theorem bilinear_warp_factor_one (x y : ℕ) (dtl dtr dbl dbr : Point) :
    bilinear_warp (x, y) (x + 1, y + 1) (dtl, dtr, dbl, dbr) (x, y) = dtl := by
  unfold bilinear_warp
  have h1 : x + 1 - x = 1 := by omega
  have h2 : y + 1 - y = 1 := by omega
  have h3 : x - x = 0 := by omega
  have h4 : y - y = 0 := by omega
  simp only [h1, h2, h3, h4]
  ext <;> norm_num

theorem sparse_pixel_factor_one (img : Img) (cs cd : List Point)
    (f : List Point → List Point → Point → Point) (x y : ℕ)
    (hx : x < img.width) (hy : y < img.height) :
    (reverseSparseBody img cs cd 1 f).pix x y
      = (reverse_dense img cs cd f).pix x y := by
  simp only [reverseSparseBody, reverse_dense, rgbImageFromFn, Nat.div_one,
    Nat.one_mul, Nat.mul_one]
  rw [bilinear_warp_factor_one]
  rw [anchors_entry img.width img.height cs cd 1 f y x (by omega) (by omega)]
  simp [Nat.mul_one]

theorem reverseSparseBody_width (img : Img) (cs cd : List Point) (factor : ℕ)
    (f : List Point → List Point → Point → Point) :
    (reverseSparseBody img cs cd factor f).width = img.width := rfl

theorem reverseSparseBody_height (img : Img) (cs cd : List Point) (factor : ℕ)
    (f : List Point → List Point → Point → Point) :
    (reverseSparseBody img cs cd factor f).height = img.height := rfl

theorem reverse_dense_width (img : Img) (cs cd : List Point)
    (f : List Point → List Point → Point → Point) :
    (reverse_dense img cs cd f).width = img.width := rfl

theorem reverse_dense_height (img : Img) (cs cd : List Point)
    (f : List Point → List Point → Point → Point) :
    (reverse_dense img cs cd f).height = img.height := rfl

/-- C4: with a subresolution factor of 1 the sparse warper succeeds (no
division-by-zero panic) and its raster is pixel-identical to the dense
warper's on the same inputs, for every raster, every control-point arrays
and every deform function: with factor 1 every pixel is an anchor and the
field interpolation returns the solver value exactly. -/
theorem claim_C4_sparse_one_eq_dense (img : Img) (cs cd : List Point)
    (f : List Point → List Point → Point → Point) :
    reverse_sparse img cs cd 1 f = some (reverseSparseBody img cs cd 1 f)
      ∧ ImgEq (reverseSparseBody img cs cd 1 f) (reverse_dense img cs cd f) :=
  ⟨rfl,
    (reverseSparseBody_width img cs cd 1 f).trans
      (reverse_dense_width img cs cd f).symm,
    (reverseSparseBody_height img cs cd 1 f).trans
      (reverse_dense_height img cs cd f).symm,
    fun x hx y hy =>
      sparse_pixel_factor_one img cs cd f x y
        ((reverseSparseBody_width img cs cd 1 f) ▸ hx)
        ((reverseSparseBody_height img cs cd 1 f) ▸ hy)⟩

theorem pos_of_sq_ne (a b : ℚ) (h : ¬(a = 0 ∧ b = 0)) : 0 < a * a + b * b := by
  rcases eq_or_ne a 0 with ha | ha
  · rcases eq_or_ne b 0 with hb | hb
    · exact absurd ⟨ha, hb⟩ h
    · nlinarith [mul_self_nonneg a, mul_self_pos.mpr hb]
  · nlinarith [mul_self_nonneg b, mul_self_pos.mpr ha]

theorem sqrDist_pos (v p : Point) (h : p ≠ v) : 0 < sqrDist v p := by
  rcases (sqrDist_nonneg v p).eq_or_lt with h0 | h0
  · exact absurd ((sqrDist_eq_zero_iff v p).mp h0.symm) h
  · exact h0

theorem mpMat_cps_eq (v : Point) :
    mpMat cps v = mpOf (1 / sqrDist v ⟨0, 0⟩) (1 / sqrDist v ⟨10, 0⟩)
      (1 / sqrDist v ⟨0, 10⟩) := by
  ext <;>
    · simp only [mpMat, wAll, pHat, pStar, wSum, sumQ, sumM, sumP, cps, sqrDist,
        Point.sqrNorm, Point.timesTranspose, List.map_cons, List.map_nil,
        List.zip_cons_cons, List.zip_nil_right, List.foldl_cons, List.foldl_nil,
        Point.sub_x, Point.sub_y, Point.smul_x, Point.smul_y, Point.add_x,
        Point.add_y, Point.zero_x, Point.zero_y, Mat2.add_m11, Mat2.add_m21,
        Mat2.add_m12, Mat2.add_m22, Mat2.smul_m11, Mat2.smul_m21, Mat2.smul_m12,
        Mat2.smul_m22, Mat2.zero_m11, Mat2.zero_m21, Mat2.zero_m12,
        Mat2.zero_m22, mpOf]
      ring

theorem muS_cps_eq (v : Point) :
    muS cps v = muSOf (1 / sqrDist v ⟨0, 0⟩) (1 / sqrDist v ⟨10, 0⟩)
      (1 / sqrDist v ⟨0, 10⟩) := by
  simp only [muS, wAll, pHat, pStar, wSum, sumQ, sumM, sumP, cps, sqrDist,
    Point.sqrNorm, Point.timesTranspose, List.map_cons, List.map_nil,
    List.zip_cons_cons, List.zip_nil_right, List.foldl_cons, List.foldl_nil,
    Point.sub_x, Point.sub_y, Point.smul_x, Point.smul_y, Point.add_x,
    Point.add_y, Point.zero_x, Point.zero_y, muSOf]
  ring

theorem mpOf_det (w1 w2 w3 : ℚ) (hW : w1 + w2 + w3 ≠ 0) :
    (mpOf w1 w2 w3).det = 10000 * w1 * w2 * w3 / (w1 + w2 + w3) := by
  simp only [mpOf, Mat2.det]
  field_simp
  ring

theorem muSOf_val (w1 w2 w3 : ℚ) (hW : w1 + w2 + w3 ≠ 0) :
    muSOf w1 w2 w3 = 100 * (w1 * w2 + w1 * w3 + 2 * (w2 * w3)) / (w1 + w2 + w3) := by
  simp only [muSOf]
  field_simp
  ring

theorem cps_not_mem_ne (v : Point) (hv : v ∉ cps) :
    Point.mk 0 0 ≠ v ∧ Point.mk 10 0 ≠ v ∧ Point.mk 0 10 ≠ v := by
  simp only [cps, List.mem_cons, List.not_mem_nil, or_false] at hv
  push_neg at hv
  exact ⟨fun h => hv.1 h.symm, fun h => hv.2.1 h.symm, fun h => hv.2.2 h.symm⟩

theorem cps_det_pos (v : Point) (hv : v ∉ cps) : 0 < (mpMat cps v).det := by
  obtain ⟨h1, h2, h3⟩ := cps_not_mem_ne v hv
  have u1 := one_div_pos.mpr (sqrDist_pos v ⟨0, 0⟩ h1)
  have u2 := one_div_pos.mpr (sqrDist_pos v ⟨10, 0⟩ h2)
  have u3 := one_div_pos.mpr (sqrDist_pos v ⟨0, 10⟩ h3)
  have hW : 0 < 1 / sqrDist v ⟨0, 0⟩ + 1 / sqrDist v ⟨10, 0⟩
      + 1 / sqrDist v ⟨0, 10⟩ := by linarith
  rw [mpMat_cps_eq, mpOf_det _ _ _ (ne_of_gt hW)]
  exact div_pos
    (mul_pos (mul_pos (mul_pos (by norm_num) u1) u2) u3) hW

theorem cps_muS_pos (v : Point) (hv : v ∉ cps) : 0 < muS cps v := by
  obtain ⟨h1, h2, h3⟩ := cps_not_mem_ne v hv
  have u1 := one_div_pos.mpr (sqrDist_pos v ⟨0, 0⟩ h1)
  have u2 := one_div_pos.mpr (sqrDist_pos v ⟨10, 0⟩ h2)
  have u3 := one_div_pos.mpr (sqrDist_pos v ⟨0, 10⟩ h3)
  have hW : 0 < 1 / sqrDist v ⟨0, 0⟩ + 1 / sqrDist v ⟨10, 0⟩
      + 1 / sqrDist v ⟨0, 10⟩ := by linarith
  rw [muS_cps_eq, muSOf_val _ _ _ (ne_of_gt hW)]
  apply div_pos _ hW
  have p12 := mul_pos u1 u2
  have p13 := mul_pos u1 u3
  have p23 := mul_pos u2 u3
  nlinarith

/-- Identity of all three kinds on the round-trip control points, at every
query point. -/
theorem deform_cps_ident (k : Kind) (q : Point) : deform k cps cps q = q := by
  by_cases hm : q ∈ cps
  · exact deform_self_mem k cps q hm
  · cases k
    · exact deform_affine_self cps q hm (ne_of_gt (cps_det_pos q hm))
    · exact deform_similarity_self cps q hm (ne_of_gt (cps_muS_pos q hm))
    · exact deform_rigid_self cps q hm (ne_of_gt (cps_muS_pos q hm))

-- Bilinear sampling at exact integer coordinates ------------------------------

@[simp] theorem Vec3.vadd_x (a c : Vec3) : (a + c).x = a.x + c.x := rfl

@[simp] theorem Vec3.vadd_y (a c : Vec3) : (a + c).y = a.y + c.y := rfl

@[simp] theorem Vec3.vadd_z (a c : Vec3) : (a + c).z = a.z + c.z := rfl

@[simp] theorem Vec3.vsmul_x (s : ℚ) (a : Vec3) : (s • a).x = s * a.x := rfl

@[simp] theorem Vec3.vsmul_y (s : ℚ) (a : Vec3) : (s • a).y = s * a.y := rfl

@[simp] theorem Vec3.vsmul_z (s : ℚ) (a : Vec3) : (s • a).z = s * a.z := rfl

theorem interp_at_corner (a b : ℚ) (ha : a = 0) (hb : b = 0)
    (v00 v01 v10 v11 : Vec3) :
    ((1 - b) * (1 - a)) • v00 + (b * (1 - a)) • v01
      + ((1 - b) * a) • v10 + (b * a) • v11 = v00 := by
  subst ha
  subst hb
  ext <;> simp

theorem fromVectorU8_cast (c : Fin 256) : fromVectorU8 ((c : ℕ) : ℚ) = c := by
  have hc0 : (0 : ℚ) ≤ ((c : ℕ) : ℚ) := by positivity
  have hc255 : ((c : ℕ) : ℚ) ≤ 255 := by
    have := Nat.lt_succ_iff.mp c.isLt
    exact_mod_cast this
  unfold fromVectorU8
  apply Fin.ext
  show (⌊min 255 (max 0 ((c : ℕ) : ℚ)) + 1 / 2⌋).toNat = (c : ℕ)
  rw [max_eq_right hc0, min_eq_right hc255]
  have hfl : ⌊((c : ℕ) : ℚ) + 1 / 2⌋ = ((c : ℕ) : ℤ) := by
    rw [Int.floor_eq_iff]
    constructor
    · push_cast
      linarith
    · push_cast
      linarith
  rw [hfl, Int.toNat_natCast]

theorem fromVector_intoVector (p : Rgb) : fromVectorRgb p.intoVector = p := by
  unfold fromVectorRgb Rgb.intoVector
  have hr := fromVectorU8_cast p.r
  have hg := fromVectorU8_cast p.g
  have hb := fromVectorU8_cast p.b
  cases p
  simp_all

theorem bilinear_nat (img : Img) (h2w : 2 ≤ img.width)
    (hw32 : img.width < 2 ^ 32) (h2h : 2 ≤ img.height)
    (hh32 : img.height < 2 ^ 32) (x y : ℕ)
    (hx : x + 2 < img.width) (hy : y + 2 < img.height) :
    bilinear img (x : ℚ) (y : ℚ) = some (img.pix x y) := by
  have hfx : ⌊(x : ℚ)⌋ = (x : ℤ) := Int.floor_natCast x
  have hfy : ⌊(y : ℚ)⌋ = (y : ℤ) := Int.floor_natCast y
  have hcond : 0 ≤ ⌊(x : ℚ)⌋
      ∧ ((⌊(x : ℚ)⌋ : ℤ) : ℚ) < ((wrapSub2 img.width : ℕ) : ℚ)
      ∧ 0 ≤ ⌊(y : ℚ)⌋
      ∧ ((⌊(y : ℚ)⌋ : ℤ) : ℚ) < ((wrapSub2 img.height : ℕ) : ℚ) := by
    rw [hfx, hfy, wrapSub2_eq _ h2w hw32, wrapSub2_eq _ h2h hh32]
    refine ⟨by positivity, ?_, by positivity, ?_⟩
    · have hn : x < img.width - 2 := by omega
      exact_mod_cast hn
    · have hn : y < img.height - 2 := by omega
      exact_mod_cast hn
  simp only [bilinear]
  rw [if_pos hcond]
  rw [hfx, hfy]
  rw [interp_at_corner _ _ (by push_cast; ring) (by push_cast; ring)]
  rw [Int.toNat_natCast, Int.toNat_natCast, fromVector_intoVector]

-- The round-trip scenario ------------------------------------------------------

/-- C8 counterexample: a white 3x3 raster run through the dense warper with
the round-trip control points `[(0,0),(10,0),(0,10)]` (similarity kind) is
not returned unchanged: the conservative bilinear bounds test rejects every
pixel in the last two columns and rows, so pixel `(1,1)` becomes the black
background instead of white. -/
theorem claim_C8_counterexample :
    ¬ ((reverse_dense whiteImg3 cps cps (deform .similarity)).pix 1 1
        = whiteImg3.pix 1 1) := by
  have hident : deform .similarity cps cps ⟨((1 : ℕ) : ℚ), ((1 : ℕ) : ℚ)⟩
      = ⟨((1 : ℕ) : ℚ), ((1 : ℕ) : ℚ)⟩ :=
    deform_cps_ident .similarity _
  show ¬ ((bilinear whiteImg3
      (deform .similarity cps cps ⟨((1 : ℕ) : ℚ), ((1 : ℕ) : ℚ)⟩).x
      (deform .similarity cps cps ⟨((1 : ℕ) : ℚ), ((1 : ℕ) : ℚ)⟩).y).getD
        colorOutside = whiteImg3.pix 1 1)
  rw [hident]
  with_unfolding_all decide

/-- C8 (amended): with the round-trip control points `[(0,0),(10,0),(0,10)]`
and identical source/destination arrays, the dense warper maps every pixel
`(x, y)` with `x + 2 < width` and `y + 2 < height` to exactly the input
pixel (the deformation is the exact identity at every query point, and
bilinear self-sampling at integer coordinates returns the pixel itself),
while every pixel of the last two columns or rows receives the black
background value, because the sampler's conservative bounds test rejects
coordinates at or beyond `width - 2` / `height - 2`.  Stated for rasters
with both dimensions in `[2, 2^32)` (outside that range the sampler's
`u32` bound wraps; see C9). -/
theorem claim_C8_round_trip (img : Img) (h2w : 2 ≤ img.width)
    (hw32 : img.width < 2 ^ 32) (h2h : 2 ≤ img.height)
    (hh32 : img.height < 2 ^ 32) (k : Kind) (x y : ℕ)
    (_hx : x < img.width) (_hy : y < img.height) :
    (reverse_dense img cps cps (deform k)).pix x y
      = if x + 2 < img.width ∧ y + 2 < img.height then img.pix x y
        else colorOutside := by
  have hident : deform k cps cps ⟨((x : ℕ) : ℚ), ((y : ℕ) : ℚ)⟩
      = ⟨((x : ℕ) : ℚ), ((y : ℕ) : ℚ)⟩ := deform_cps_ident k _
  show (bilinear img (deform k cps cps ⟨((x : ℕ) : ℚ), ((y : ℕ) : ℚ)⟩).x
      (deform k cps cps ⟨((x : ℕ) : ℚ), ((y : ℕ) : ℚ)⟩).y).getD colorOutside = _
  rw [hident]
  by_cases hin : x + 2 < img.width ∧ y + 2 < img.height
  · rw [if_pos hin,
      bilinear_nat img h2w hw32 h2h hh32 x y hin.1 hin.2]
    rfl
  · rw [if_neg hin]
    have hnone : bilinear img ((x : ℕ) : ℚ) ((y : ℕ) : ℚ) = none := by
      rw [← Option.not_isSome_iff_eq_none,
        bilinear_isSome_iff img h2w hw32 h2h hh32]
      rintro ⟨_, hbx, _, hby⟩
      apply hin
      constructor
      · have : ((x : ℚ)) + 2 < (img.width : ℚ) := by linarith
        exact_mod_cast this
      · have : ((y : ℚ)) + 2 < (img.height : ℚ) := by linarith
        exact_mod_cast this
    rw [hnone]
    rfl

/-- Witness for C8: on a white 4x4 raster (affine kind), the interior pixel
(1,1) keeps its value while the border pixel (3,3) becomes black. -/
theorem claim_C8_witness :
    ((reverse_dense whiteImg4 cps cps (deform .affine)).pix 1 1
        = if 1 + 2 < whiteImg4.width ∧ 1 + 2 < whiteImg4.height
          then whiteImg4.pix 1 1 else colorOutside)
      ∧ ((reverse_dense whiteImg4 cps cps (deform .affine)).pix 3 3
          = if 3 + 2 < whiteImg4.width ∧ 3 + 2 < whiteImg4.height
            then whiteImg4.pix 3 3 else colorOutside) :=
  ⟨claim_C8_round_trip whiteImg4 (by decide) (by decide) (by decide)
      (by decide) .affine 1 1 (by decide) (by decide),
    claim_C8_round_trip whiteImg4 (by decide) (by decide) (by decide)
      (by decide) .affine 3 3 (by decide) (by decide)⟩

/-- Witness for C1: a duplicated source control point; the first match (at
index 1) wins and its destination point is returned. -/
theorem claim_C1_witness :
    deform .rigid [⟨1, 1⟩, ⟨5, 2⟩, ⟨5, 2⟩] [⟨3, 3⟩, ⟨7, 7⟩, ⟨9, 9⟩] ⟨5, 2⟩
      = Point.mk 7 7 := by
  have h := claim_C1_exact_match_short_circuit .rigid
    [⟨1, 1⟩, ⟨5, 2⟩, ⟨5, 2⟩] [⟨3, 3⟩, ⟨7, 7⟩, ⟨9, 9⟩] ⟨5, 2⟩ 1
    (by decide) (by decide) (by decide) (by decide)
  simpa using h

end MLS
